import Mathlib

/-!
Verification of the cortex filter core (`src/cortex/core/filters/converter.py`):
the Filter Value Object data model, the filter constructors
(`runtime_filter_to_semantic`, `dict_to_semantic_filters`) and the merger
(`merge_filters`), shallowly embedded in Lean 4.
-/

namespace Cortex

/-- A Python runtime value as converter.py discriminates it: the only
inspection the source performs on values is `isinstance(value, list)`, so the
universe of values is scalars (strings, integers) and lists of values. -/
inductive PyValue where
  | str : String → PyValue
  | int : Int → PyValue
  | list : List PyValue → PyValue

mutual

/-- Decidable equality of Python values (written out by hand because the
nested `List` occurrence defeats automatic derivation). -/
def PyValue.decEq : (a b : PyValue) → Decidable (a = b)
  | .str s, .str t =>
    match String.decEq s t with
    | isTrue h => isTrue (by rw [h])
    | isFalse h => isFalse (fun hh => by injection hh with h1; exact h h1)
  | .int m, .int n =>
    match Int.decEq m n with
    | isTrue h => isTrue (by rw [h])
    | isFalse h => isFalse (fun hh => by injection hh with h1; exact h h1)
  | .list xs, .list ys =>
    match PyValue.decEqList xs ys with
    | isTrue h => isTrue (by rw [h])
    | isFalse h => isFalse (fun hh => by injection hh with h1; exact h h1)
  | .str _, .int _ => isFalse (fun h => PyValue.noConfusion h)
  | .str _, .list _ => isFalse (fun h => PyValue.noConfusion h)
  | .int _, .str _ => isFalse (fun h => PyValue.noConfusion h)
  | .int _, .list _ => isFalse (fun h => PyValue.noConfusion h)
  | .list _, .str _ => isFalse (fun h => PyValue.noConfusion h)
  | .list _, .int _ => isFalse (fun h => PyValue.noConfusion h)

/-- Decidable equality of lists of Python values. -/
def PyValue.decEqList : (l1 l2 : List PyValue) → Decidable (l1 = l2)
  | [], [] => isTrue rfl
  | [], _ :: _ => isFalse (fun h => List.noConfusion h)
  | _ :: _, [] => isFalse (fun h => List.noConfusion h)
  | a :: l1, b :: l2 =>
    match PyValue.decEq a b, PyValue.decEqList l1 l2 with
    | isTrue h1, isTrue h2 => isTrue (by rw [h1, h2])
    | isFalse h1, _ => isFalse (fun h => by injection h with h1' h2'; exact h1 h1')
    | isTrue _, isFalse h2 =>
        isFalse (fun h => by injection h with h1' h2'; exact h2 h2')

end

instance : DecidableEq PyValue := PyValue.decEq

/-- True exactly on the `list` constructor, mirroring `isinstance(value, list)`. -/
def PyValue.isList : PyValue → Bool
  | .list _ => true
  | _ => false

/-- Modelled from the spec: the operator vocabulary `FilterOperator` is imported
by converter.py from `cortex.core.types.semantics.filter`, which is not among
the source files; the spec fixes it as a closed enumeration
{EQUALS, NOT_EQUALS, GREATER_THAN, LESS_THAN, IN, NOT_IN, BETWEEN} with a
string-equivalent wire representation. -/
inductive FilterOperator where
  | EQUALS
  | NOT_EQUALS
  | GREATER_THAN
  | LESS_THAN
  | IN
  | NOT_IN
  | BETWEEN
deriving DecidableEq

/-- Modelled from the spec: the wire string of each operator (Python
`operator.value`), lowercased as witnessed by the spec example
`name == "filter_price_between"`. -/
def FilterOperator.val : FilterOperator → String
  | .EQUALS => "equals"
  | .NOT_EQUALS => "not_equals"
  | .GREATER_THAN => "greater_than"
  | .LESS_THAN => "less_than"
  | .IN => "in"
  | .NOT_IN => "not_in"
  | .BETWEEN => "between"

/-- Modelled from the spec: value-type hints, a closed enumeration
(STRING, NUMBER, …) defined outside the given source files. -/
inductive FilterValueType where
  | STRING
  | NUMBER
deriving DecidableEq

/-- Modelled from the spec: pre- vs post-aggregation application point
(WHERE, HAVING), defined outside the given source files. -/
inductive FilterType where
  | WHERE
  | HAVING
deriving DecidableEq

/-- Modelled from the spec: the Filter Value Object (`SemanticFilter`), a pure
data holder whose class body lives outside the given source files; fields are
exactly those converter.py passes to its constructor, with the dimension stored
under `query`. Construction performs no validation. -/
structure SemanticFilter where
  name : String
  query : String
  operator : FilterOperator
  value : Option PyValue
  values : Option (List PyValue)
  min_value : Option PyValue
  max_value : Option PyValue
  table : Option String
  value_type : FilterValueType
  filter_type : FilterType
  is_active : Bool
deriving DecidableEq

/-- Embedding of `runtime_filter_to_semantic` (converter.py lines 18-84):
auto-generates the name as `f"filter_{dimension}_{operator.value}"` when none
is given, then builds the SemanticFilter with all arguments copied verbatim
(the dimension stored under `query`). Arguments are positional; the Python
defaults are supplied explicitly at every call site of this embedding. -/
def runtime_filter_to_semantic (dimension : String) (operator : FilterOperator)
    (value : Option PyValue) (values : Option (List PyValue))
    (min_value : Option PyValue) (max_value : Option PyValue)
    (table : Option String) (value_type : FilterValueType)
    (filter_type : FilterType) (is_active : Bool)
    (name : Option String) : SemanticFilter :=
  let n : String :=
    match name with
    | none => "filter_" ++ dimension ++ "_" ++ operator.val
    | some n0 => n0
  ⟨n, dimension, operator, value, values, min_value, max_value, table,
    value_type, filter_type, is_active⟩

/-- One step of the Python dict: `d[k] = v` on an insertion-ordered dict
represented as a key-ordered association list with no duplicate keys.
A present key keeps its position and gets the new value; an absent key is
appended at the end. -/
def dictInsert (d : List (String × SemanticFilter)) (k : String)
    (v : SemanticFilter) : List (String × SemanticFilter) :=
  match d with
  | [] => [(k, v)]
  | p :: rest => if p.1 = k then (k, v) :: rest else p :: dictInsert rest k v

/-- The loop `for f in fs: d[f.name] = f` over the ordered dict. -/
def dictUpdate (d : List (String × SemanticFilter))
    (fs : List SemanticFilter) : List (String × SemanticFilter) :=
  fs.foldl (fun acc f => dictInsert acc f.name f) d

/-- Embedding of `merge_filters` (converter.py lines 87-132): if `replace`,
return the runtime list; if the existing list is absent or empty, return the
runtime list; if the runtime list is empty, return the existing list; otherwise
build `merged = {f.name: f for f in existing_filters}`, overwrite with each
runtime filter under its name, and return `list(merged.values())`. -/
def merge_filters (existing_filters : Option (List SemanticFilter))
    (runtime_filters : List SemanticFilter) (replace : Bool) :
    List SemanticFilter :=
  if replace then runtime_filters
  else
    match existing_filters with
    | none => runtime_filters
    | some ex =>
      if ex = [] then runtime_filters
      else if runtime_filters = [] then ex
      else (dictUpdate (dictUpdate [] ex) runtime_filters).map Prod.snd

/-- The loop body of `dict_to_semantic_filters` (converter.py lines 162-177):
`isinstance(value, list)` routes a list value to `runtime_filter_to_semantic`
with operator IN and `values=value`, and any other value to operator EQUALS
with `value=value`; the remaining arguments keep the Python defaults. -/
def dictEntry (p : String × PyValue) : SemanticFilter :=
  match p.2 with
  | PyValue.list vs =>
      runtime_filter_to_semantic p.1 FilterOperator.IN none (some vs)
        none none none FilterValueType.STRING FilterType.WHERE true none
  | v =>
      runtime_filter_to_semantic p.1 FilterOperator.EQUALS (some v)
        none none none none FilterValueType.STRING FilterType.WHERE true none

/-- Embedding of `dict_to_semantic_filters` (converter.py lines 135-179): the
input mapping as an ordered list of key/value pairs, iterated in order; each
built filter (`dictEntry`) is appended to the accumulator, which starts empty. -/
def dict_to_semantic_filters (filter_dict : List (String × PyValue)) :
    List SemanticFilter :=
  filter_dict.foldl (fun fs p => fs ++ [dictEntry p]) []

/-- The names of a filter list, in order. -/
def fnames (l : List SemanticFilter) : List String :=
  l.map SemanticFilter.name

/-- The keys of an ordered dict, in order. -/
def dkeys (d : List (String × SemanticFilter)) : List String :=
  d.map Prod.fst

/-- Dict lookup: the value stored under `k`, if any. -/
def dlook (d : List (String × SemanticFilter)) (k : String) :
    Option SemanticFilter :=
  (d.find? (fun p => p.1 == k)).map Prod.snd

/-- The last entry of a filter list carrying a given name — the content the
Python dict retains for that name after inserting the whole list. -/
def lastNamed (l : List SemanticFilter) (n : String) : Option SemanticFilter :=
  l.reverse.find? (fun f => f.name == n)

/-- The ordered dict `merge_filters` builds in its general branch. -/
def mergeDict (b r : List SemanticFilter) : List (String × SemanticFilter) :=
  dictUpdate (dictUpdate [] b) r

/-- Fixture: a filter named "a" (think a stored metric filter). -/
def fA : SemanticFilter :=
  ⟨"a", "qa", FilterOperator.EQUALS, some (PyValue.int 1), none, none, none,
    none, FilterValueType.STRING, FilterType.WHERE, true⟩

/-- Fixture: a second filter named "a" with different content. -/
def fA2 : SemanticFilter :=
  ⟨"a", "qa", FilterOperator.EQUALS, some (PyValue.int 7), none, none, none,
    none, FilterValueType.STRING, FilterType.WHERE, true⟩

/-- Fixture: a filter named "b". -/
def fB : SemanticFilter :=
  ⟨"b", "qb", FilterOperator.EQUALS, some (PyValue.int 2), none, none, none,
    none, FilterValueType.STRING, FilterType.WHERE, true⟩

/-- Fixture: a second filter named "b" with different content (a runtime
override of `fB`). -/
def fB2 : SemanticFilter :=
  ⟨"b", "qb", FilterOperator.EQUALS, some (PyValue.int 9), none, none, none,
    none, FilterValueType.STRING, FilterType.WHERE, true⟩

/-- Fixture: a filter named "c". -/
def fC : SemanticFilter :=
  ⟨"c", "qc", FilterOperator.EQUALS, some (PyValue.int 3), none, none, none,
    none, FilterValueType.STRING, FilterType.WHERE, true⟩

/-! ### Ordered-dict lemmas -/

theorem dkeys_dictInsert (d : List (String × SemanticFilter)) (k : String)
    (v : SemanticFilter) :
    dkeys (dictInsert d k v) = if k ∈ dkeys d then dkeys d else dkeys d ++ [k] := by
  induction d with
  | nil => simp [dictInsert, dkeys]
  | cons p rest ih =>
    by_cases hpk : p.1 = k
    · simp [dictInsert, hpk, dkeys]
    · simp only [dictInsert, hpk, if_false, dkeys, List.map_cons, List.mem_cons]
      simp only [dkeys] at ih
      rw [ih]
      by_cases hk : k ∈ List.map Prod.fst rest
      · simp [hk, Ne.symm hpk]
      · simp [hk, Ne.symm hpk]

theorem dkeys_dictInsert_nodup (d : List (String × SemanticFilter)) (k : String)
    (v : SemanticFilter) (h : (dkeys d).Nodup) :
    (dkeys (dictInsert d k v)).Nodup := by
  rw [dkeys_dictInsert]
  by_cases hk : k ∈ dkeys d
  · simpa [hk] using h
  · simp only [hk, if_false]
    exact List.Nodup.append h (List.nodup_singleton k)
      (fun x hx hxk => hk ((List.mem_singleton.mp hxk) ▸ hx))

theorem dlook_dictInsert_self (d : List (String × SemanticFilter)) (k : String)
    (v : SemanticFilter) : dlook (dictInsert d k v) k = some v := by
  induction d with
  | nil => simp [dictInsert, dlook]
  | cons p rest ih =>
    by_cases hpk : p.1 = k
    · simp [dictInsert, hpk, dlook, List.find?]
    · simp only [dictInsert, hpk, if_false]
      simp only [dlook, List.find?_cons] at *
      have : (p.1 == k) = false := by simpa using hpk
      rw [this]
      exact ih

theorem dlook_dictInsert_ne (d : List (String × SemanticFilter)) (k k' : String)
    (v : SemanticFilter) (hne : k' ≠ k) :
    dlook (dictInsert d k v) k' = dlook d k' := by
  induction d with
  | nil =>
    have h1 : (k == k') = false := by simpa using Ne.symm hne
    simp [dictInsert, dlook, List.find?, h1]
  | cons p rest ih =>
    by_cases hpk : p.1 = k
    · have h1 : (k == k') = false := by simpa using Ne.symm hne
      have h2 : (p.1 == k') = false := by simpa [hpk] using Ne.symm hne
      simp [dictInsert, hpk, dlook, List.find?_cons, h1, h2]
    · simp only [dictInsert, hpk, if_false]
      by_cases hpk' : p.1 = k'
      · simp [dlook, List.find?_cons, hpk']
      · have h2 : (p.1 == k') = false := by simpa using hpk'
        simp only [dlook, List.find?_cons, h2] at *
        exact ih

theorem mem_dictInsert (d : List (String × SemanticFilter)) (k : String)
    (v : SemanticFilter) (p : String × SemanticFilter)
    (hp : p ∈ dictInsert d k v) : p ∈ d ∨ p = (k, v) := by
  induction d with
  | nil => simpa [dictInsert] using hp
  | cons q rest ih =>
    by_cases hqk : q.1 = k
    · simp only [dictInsert, hqk, if_true] at hp
      rcases List.mem_cons.mp hp with h | h
      · exact Or.inr h
      · exact Or.inl (List.mem_cons_of_mem _ h)
    · simp only [dictInsert, hqk, if_false] at hp
      rcases List.mem_cons.mp hp with h | h
      · exact Or.inl (h ▸ List.mem_cons_self _ _)
      · rcases ih h with h' | h'
        · exact Or.inl (List.mem_cons_of_mem _ h')
        · exact Or.inr h'

/-! ### dictUpdate lemmas -/

theorem dictUpdate_cons (d : List (String × SemanticFilter))
    (f : SemanticFilter) (fs : List SemanticFilter) :
    dictUpdate d (f :: fs) = dictUpdate (dictInsert d f.name f) fs := by
  simp [dictUpdate, List.foldl_cons]

theorem mem_dkeys_dictUpdate (d : List (String × SemanticFilter))
    (fs : List SemanticFilter) (n : String) :
    n ∈ dkeys (dictUpdate d fs) ↔ n ∈ dkeys d ∨ n ∈ fnames fs := by
  induction fs generalizing d with
  | nil => simp [dictUpdate, fnames]
  | cons f fs ih =>
    rw [dictUpdate_cons, ih]
    rw [dkeys_dictInsert]
    by_cases hf : f.name ∈ dkeys d
    · simp only [hf, if_true, fnames, List.map_cons, List.mem_cons]
      constructor
      · rintro (h | h)
        · exact Or.inl h
        · exact Or.inr (Or.inr h)
      · rintro (h | h | h)
        · exact Or.inl h
        · exact Or.inl (h ▸ hf)
        · exact Or.inr h
    · simp only [hf, if_false, fnames, List.map_cons, List.mem_cons,
        List.mem_append, List.mem_singleton]
      tauto

theorem dkeys_dictUpdate_nodup (d : List (String × SemanticFilter))
    (fs : List SemanticFilter) (h : (dkeys d).Nodup) :
    (dkeys (dictUpdate d fs)).Nodup := by
  induction fs generalizing d with
  | nil => simpa [dictUpdate] using h
  | cons f fs ih =>
    rw [dictUpdate_cons]
    exact ih _ (dkeys_dictInsert_nodup _ _ _ h)

theorem mem_dictUpdate (d : List (String × SemanticFilter))
    (fs : List SemanticFilter) (p : String × SemanticFilter)
    (hp : p ∈ dictUpdate d fs) : p ∈ d ∨ (p.2 ∈ fs ∧ p.1 = p.2.name) := by
  induction fs generalizing d with
  | nil => exact Or.inl (by simpa [dictUpdate] using hp)
  | cons f fs ih =>
    rw [dictUpdate_cons] at hp
    rcases ih _ hp with h | h
    · rcases mem_dictInsert _ _ _ _ h with h' | h'
      · exact Or.inl h'
      · subst h'
        exact Or.inr ⟨List.mem_cons_self _ _, rfl⟩
    · exact Or.inr ⟨List.mem_cons_of_mem _ h.1, h.2⟩

theorem dictUpdate_name_inv (d : List (String × SemanticFilter))
    (fs : List SemanticFilter) (hd : ∀ p ∈ d, p.2.name = p.1) :
    ∀ p ∈ dictUpdate d fs, p.2.name = p.1 := by
  intro p hp
  rcases mem_dictUpdate d fs p hp with h | h
  · exact hd p h
  · exact h.2.symm

/-! ### lastNamed lemmas -/

theorem lastNamed_eq_none_iff (l : List SemanticFilter) (n : String) :
    lastNamed l n = none ↔ n ∉ fnames l := by
  simp only [lastNamed, List.find?_eq_none, List.mem_reverse, beq_iff_eq, fnames,
    List.mem_map]
  constructor
  · rintro h ⟨f, hf, hfn⟩
    exact h f hf hfn
  · rintro h f hf hfn
    exact h ⟨f, hf, hfn⟩

theorem lastNamed_cons_of_mem (f : SemanticFilter) (fs : List SemanticFilter)
    (n : String) (h : n ∈ fnames fs) : lastNamed (f :: fs) n = lastNamed fs n := by
  simp only [lastNamed, List.reverse_cons, List.find?_append]
  cases hfind : List.find? (fun g => g.name == n) fs.reverse with
  | none =>
    exfalso
    exact (lastNamed_eq_none_iff fs n).mp hfind h
  | some g => simp [Option.or]

theorem lastNamed_cons_self (f : SemanticFilter) (fs : List SemanticFilter)
    (h : f.name ∉ fnames fs) : lastNamed (f :: fs) f.name = some f := by
  simp only [lastNamed, List.reverse_cons, List.find?_append]
  have h0 : lastNamed fs f.name = none := (lastNamed_eq_none_iff fs f.name).mpr h
  simp only [lastNamed] at h0
  simp [h0, Option.or]

theorem lastNamed_mem (l : List SemanticFilter) (n : String) (f : SemanticFilter)
    (h : lastNamed l n = some f) : f ∈ l ∧ f.name = n := by
  refine ⟨List.mem_reverse.mp (List.mem_of_find?_eq_some h), ?_⟩
  simpa using List.find?_some h

theorem find?_of_nodup_names (l : List SemanticFilter) (f : SemanticFilter)
    (hnd : (fnames l).Nodup) (hf : f ∈ l) :
    l.find? (fun g => g.name == f.name) = some f := by
  induction l with
  | nil => cases hf
  | cons g l ih =>
    have hnd' : g.name ∉ fnames l ∧ (fnames l).Nodup := by
      simpa [fnames] using hnd
    rcases List.mem_cons.mp hf with h | h
    · subst h
      exact List.find?_cons_of_pos _ (by simp)
    · have hne : ¬ (g.name == f.name) = true := by
        simp only [beq_iff_eq]
        intro he
        exact hnd'.1 (he ▸ (by exact List.mem_map.mpr ⟨f, h, rfl⟩))
      have hstep : List.find? (fun g2 => g2.name == f.name) (g :: l)
          = List.find? (fun g2 => g2.name == f.name) l :=
        List.find?_cons_of_neg l hne
      rw [hstep]
      exact ih hnd'.2 h

theorem lastNamed_of_nodup (l : List SemanticFilter) (f : SemanticFilter)
    (hnd : (fnames l).Nodup) (hf : f ∈ l) : lastNamed l f.name = some f := by
  unfold lastNamed
  exact find?_of_nodup_names l.reverse f
    (by simpa [fnames, List.map_reverse] using hnd)
    (List.mem_reverse.mpr hf)

/-! ### Lookup characterization of dictUpdate -/

theorem dlook_dictUpdate (d : List (String × SemanticFilter))
    (fs : List SemanticFilter) (n : String) :
    dlook (dictUpdate d fs) n =
      if n ∈ fnames fs then lastNamed fs n else dlook d n := by
  induction fs generalizing d with
  | nil => simp [dictUpdate, fnames]
  | cons f fs ih =>
    rw [dictUpdate_cons, ih]
    by_cases h1 : n ∈ fnames fs
    · have hmem : n ∈ fnames (f :: fs) := by
        simp only [fnames, List.map_cons, List.mem_cons]
        exact Or.inr (by simpa [fnames] using h1)
      rw [if_pos h1, if_pos hmem, lastNamed_cons_of_mem _ _ _ h1]
    · rw [if_neg h1]
      by_cases h2 : f.name = n
      · subst h2
        rw [dlook_dictInsert_self]
        have hmem : f.name ∈ fnames (f :: fs) := by
          simp [fnames]
        rw [if_pos hmem, lastNamed_cons_self _ _ h1]
      · rw [dlook_dictInsert_ne _ _ _ _ (Ne.symm h2)]
        have hmem : n ∉ fnames (f :: fs) := by
          simp only [fnames, List.map_cons, List.mem_cons]
          rintro (h | h)

          · exact h2 h.symm
          · exact h1 (by simpa [fnames] using h)
        rw [if_neg hmem]

/-! ### Key-order characterization of dictUpdate -/

theorem dkeys_dictUpdate_of_nodup (d : List (String × SemanticFilter))
    (fs : List SemanticFilter) (h : (fnames fs).Nodup) :
    dkeys (dictUpdate d fs)
      = dkeys d ++ (fnames fs).filter (fun n => decide (n ∉ dkeys d)) := by
  induction fs generalizing d with
  | nil => simp [dictUpdate, fnames]
  | cons f fs ih =>
    have h' : f.name ∉ fnames fs ∧ (fnames fs).Nodup := by simpa [fnames] using h
    rw [dictUpdate_cons, ih _ h'.2]
    rw [dkeys_dictInsert]
    by_cases hmem : f.name ∈ dkeys d
    · rw [if_pos hmem]
      have hhead : decide (f.name ∉ dkeys d) = false := by simpa using hmem
      simp only [fnames, List.map_cons, List.filter_cons, hhead, if_false]
      rfl
    · rw [if_neg hmem]
      have hhead : decide (f.name ∉ dkeys d) = true := by simpa using hmem
      have hcongr : (fnames fs).filter (fun n => decide (n ∉ dkeys d ++ [f.name]))
          = (fnames fs).filter (fun n => decide (n ∉ dkeys d)) := by
        apply List.filter_congr
        intro n hn
        have hne : n ≠ f.name := fun he => h'.1 (he ▸ hn)
        simp [hne]
      rw [hcongr]
      simp only [fnames, List.map_cons, List.filter_cons, hhead, if_true]
      simp [List.append_assoc]

/-! ### From the dict to the output list -/

theorem find?_congr_on {α : Type} (l : List α) (p q : α → Bool)
    (h : ∀ a ∈ l, p a = q a) : l.find? p = l.find? q := by
  induction l with
  | nil => rfl
  | cons a l ih =>
    have hh := h a (List.mem_cons_self a l)
    cases hq : q a with
    | true => simp [List.find?_cons, hq, hh]
    | false =>
      simp only [List.find?_cons, hq, hh]
      exact ih (fun b hb => h b (List.mem_cons_of_mem a hb))

theorem fnames_map_snd (D : List (String × SemanticFilter))
    (hinv : ∀ p ∈ D, p.2.name = p.1) :
    fnames (D.map Prod.snd) = dkeys D := by
  simp only [fnames, dkeys, List.map_map]
  exact List.map_congr_left (fun p hp => hinv p hp)

theorem find?_map_snd (D : List (String × SemanticFilter)) (n : String)
    (hinv : ∀ p ∈ D, p.2.name = p.1) :
    (D.map Prod.snd).find? (fun g => g.name == n) = dlook D n := by
  rw [List.find?_map]
  unfold dlook
  congr 1
  exact find?_congr_on D _ _ (fun p hp => by simp [Function.comp, hinv p hp])

theorem find?_fst_of_mem (D : List (String × SemanticFilter))
    (p : String × SemanticFilter) (hnd : (dkeys D).Nodup) (hp : p ∈ D) :
    D.find? (fun q => q.1 == p.1) = some p := by
  induction D with
  | nil => cases hp
  | cons q D ih =>
    have hnd' : q.1 ∉ dkeys D ∧ (dkeys D).Nodup := by simpa [dkeys] using hnd
    rcases List.mem_cons.mp hp with h | h
    · subst h
      exact List.find?_cons_of_pos _ (by simp)
    · by_cases hq : q.1 = p.1
      · exact absurd (hq ▸ List.mem_map.mpr ⟨p, h, rfl⟩) hnd'.1
      · have hstep : List.find? (fun r => r.1 == p.1) (q :: D)
            = List.find? (fun r => r.1 == p.1) D :=
          List.find?_cons_of_neg D (by simpa using hq)
        rw [hstep]
        exact ih hnd'.2 h

theorem dlook_of_mem_output (D : List (String × SemanticFilter))
    (f : SemanticFilter) (hnd : (dkeys D).Nodup)
    (hinv : ∀ p ∈ D, p.2.name = p.1)
    (hf : f ∈ D.map Prod.snd) : dlook D f.name = some f := by
  rcases List.mem_map.mp hf with ⟨p, hp, hps⟩
  subst hps
  unfold dlook
  rw [hinv p hp, find?_fst_of_mem D p hnd hp]
  rfl

theorem dlook_some_mem (D : List (String × SemanticFilter)) (n : String)
    (f : SemanticFilter) (h : dlook D n = some f) : f ∈ D.map Prod.snd := by
  unfold dlook at h
  cases hfind : D.find? (fun q => q.1 == n) with
  | none => rw [hfind] at h; cases h
  | some p =>
    rw [hfind] at h
    have hf : f = p.2 := by simpa using h.symm
    exact hf ▸ List.mem_map.mpr ⟨p, List.mem_of_find?_eq_some hfind, rfl⟩

theorem dlook_some_name (D : List (String × SemanticFilter)) (n : String)
    (f : SemanticFilter) (hinv : ∀ p ∈ D, p.2.name = p.1)
    (h : dlook D n = some f) : f.name = n := by
  unfold dlook at h
  cases hfind : D.find? (fun q => q.1 == n) with
  | none => rw [hfind] at h; cases h
  | some p =>
    rw [hfind] at h
    have hf : f = p.2 := by simpa using h.symm
    have h1 : p.1 = n := by simpa using List.find?_some hfind
    rw [hf, hinv p (List.mem_of_find?_eq_some hfind), h1]

/-! ### The merge dictionary -/

theorem merge_filters_nonempty (b r : List SemanticFilter) (hb : b ≠ [])
    (hr : r ≠ []) :
    merge_filters (some b) r false = (mergeDict b r).map Prod.snd := by
  simp [merge_filters, mergeDict, hb, hr]

theorem mergeDict_inv (b r : List SemanticFilter) :
    ∀ p ∈ mergeDict b r, p.2.name = p.1 :=
  dictUpdate_name_inv _ _ (dictUpdate_name_inv _ _ (by simp))

theorem mergeDict_nodup (b r : List SemanticFilter) :
    (dkeys (mergeDict b r)).Nodup :=
  dkeys_dictUpdate_nodup _ _ (dkeys_dictUpdate_nodup _ _ (by simp [dkeys]))

theorem mergeDict_dlook (b r : List SemanticFilter) (n : String) :
    dlook (mergeDict b r) n =
      if n ∈ fnames r then lastNamed r n
      else if n ∈ fnames b then lastNamed b n else none := by
  unfold mergeDict
  rw [dlook_dictUpdate, dlook_dictUpdate]
  by_cases h1 : n ∈ fnames r <;> by_cases h2 : n ∈ fnames b <;>
    simp [h1, h2, dlook]

theorem mergeDict_mem_keys (b r : List SemanticFilter) (n : String) :
    n ∈ dkeys (mergeDict b r) ↔ n ∈ fnames b ∨ n ∈ fnames r := by
  unfold mergeDict
  rw [mem_dkeys_dictUpdate, mem_dkeys_dictUpdate]
  simp [dkeys]

theorem mergeDict_dkeys (b r : List SemanticFilter)
    (hbn : (fnames b).Nodup) (hrn : (fnames r).Nodup) :
    dkeys (mergeDict b r)
      = fnames b ++ (fnames r).filter (fun n => decide (n ∉ fnames b)) := by
  unfold mergeDict
  rw [dkeys_dictUpdate_of_nodup _ _ hrn, dkeys_dictUpdate_of_nodup _ _ hbn]
  simp [dkeys]

theorem lastNamed_eq_find?_of_nodup (l : List SemanticFilter) (n : String)
    (hnd : (fnames l).Nodup) :
    lastNamed l n = l.find? (fun f => f.name == n) := by
  by_cases hm : n ∈ fnames l
  · rcases List.mem_map.mp hm with ⟨f, hf, hfn⟩
    subst hfn
    rw [lastNamed_of_nodup l f hnd hf, find?_of_nodup_names l f hnd hf]
  · rw [(lastNamed_eq_none_iff l n).mpr hm]
    have : l.find? (fun f => f.name == n) = none := by
      rw [List.find?_eq_none]
      intro f hf
      simp only [beq_iff_eq]
      intro hfn
      exact hm (List.mem_map.mpr ⟨f, hf, hfn⟩)
    rw [this]

theorem lastNamed_map_snd (D : List (String × SemanticFilter)) (n : String)
    (hnd : (dkeys D).Nodup) (hinv : ∀ p ∈ D, p.2.name = p.1) :
    lastNamed (D.map Prod.snd) n = dlook D n := by
  rw [lastNamed_eq_find?_of_nodup _ _ (by rw [fnames_map_snd D hinv]; exact hnd)]
  exact find?_map_snd D n hinv

/-! ### dict_to_semantic_filters as a map -/

theorem dict_fold_acc (l : List (String × PyValue)) (acc : List SemanticFilter) :
    l.foldl (fun fs p => fs ++ [dictEntry p]) acc = acc ++ l.map dictEntry := by
  induction l generalizing acc with
  | nil => simp
  | cons p l ih =>
    simp only [List.foldl_cons, List.map_cons]
    rw [ih]
    simp [List.append_assoc]

theorem dict_to_semantic_filters_eq_map (l : List (String × PyValue)) :
    dict_to_semantic_filters l = l.map dictEntry := by
  unfold dict_to_semantic_filters
  rw [dict_fold_acc]
  simp

/-! ### Claim theorems -/

/-- C3: for every baseline argument (absent, empty, or non-empty) and every
runtime list, `merge_filters baseline runtime true` returns the runtime list
verbatim; the baseline is discarded entirely. -/
theorem merge_replace_verbatim (b : Option (List SemanticFilter))
    (r : List SemanticFilter) : merge_filters b r true = r := by
  simp [merge_filters]

/-- C4: merge is total with explicit no-op cases: an absent or empty baseline
returns the runtime list, and an empty runtime list returns the baseline
list, never a failure. -/
theorem merge_noop_cases (b r : List SemanticFilter) :
    merge_filters none r false = r
    ∧ merge_filters (some []) r false = r
    ∧ merge_filters (some b) [] false = b := by
  refine ⟨by simp [merge_filters], by simp [merge_filters], ?_⟩
  by_cases hb : b = []
  · subst hb
    simp [merge_filters]
  · simp [merge_filters, hb]

/-- C6: `runtime_filter_to_semantic` copies all of its inputs verbatim into a
new SemanticFilter (the dimension stored under `query`), and when `name` is
omitted derives it as `"filter_" + dimension + "_" + operator.value`; in
particular dimension "price" with operator BETWEEN and no explicit name
yields the name "filter_price_between". -/
theorem runtime_filter_verbatim (dimension : String) (operator : FilterOperator)
    (value : Option PyValue) (values : Option (List PyValue))
    (min_value max_value : Option PyValue) (table : Option String)
    (value_type : FilterValueType) (filter_type : FilterType)
    (is_active : Bool) (name : Option String) :
    runtime_filter_to_semantic dimension operator value values min_value
        max_value table value_type filter_type is_active name
      = ⟨name.getD ("filter_" ++ dimension ++ "_" ++ operator.val), dimension,
          operator, value, values, min_value, max_value, table, value_type,
          filter_type, is_active⟩
    ∧ (runtime_filter_to_semantic "price" FilterOperator.BETWEEN none none
        (some (PyValue.int 10)) (some (PyValue.int 100)) none
        FilterValueType.NUMBER FilterType.WHERE true none).name
      = "filter_price_between" := by
  refine ⟨?_, by decide⟩
  cases name <;> simp [runtime_filter_to_semantic, Option.getD]

/-- C5: `dict_to_semantic_filters` iterates the mapping in its given order,
emitting for each entry an IN filter over `values` when the entry's value is a
list and an EQUALS filter on `value` otherwise; the example input
{"status": "active", "region": ["US","EU","APAC"]} yields exactly two filters,
status EQUALS "active" then region IN ["US","EU","APAC"], in that order. -/
theorem dict_to_filters_shape :
    (∀ m : List (String × PyValue),
      List.Forall₂ (fun (p : String × PyValue) (f : SemanticFilter) =>
        f.query = p.1 ∧
        match p.2 with
        | PyValue.list vs =>
            f.operator = FilterOperator.IN ∧ f.values = some vs ∧ f.value = none
        | v =>
            f.operator = FilterOperator.EQUALS ∧ f.value = some v
              ∧ f.values = none)
        m (dict_to_semantic_filters m))
    ∧ dict_to_semantic_filters
        [("status", PyValue.str "active"),
          ("region", PyValue.list
            [PyValue.str "US", PyValue.str "EU", PyValue.str "APAC"])]
      = [⟨"filter_status_equals", "status", FilterOperator.EQUALS,
            some (PyValue.str "active"), none, none, none, none,
            FilterValueType.STRING, FilterType.WHERE, true⟩,
          ⟨"filter_region_in", "region", FilterOperator.IN, none,
            some [PyValue.str "US", PyValue.str "EU", PyValue.str "APAC"],
            none, none, none, FilterValueType.STRING, FilterType.WHERE,
            true⟩] := by
  constructor
  · intro m
    rw [dict_to_semantic_filters_eq_map]
    induction m with
    | nil => exact List.Forall₂.nil
    | cons p m ih =>
      refine List.Forall₂.cons ?_ ih
      cases hp : p.2 with
      | str s => simp [dictEntry, hp, runtime_filter_to_semantic]
      | int i => simp [dictEntry, hp, runtime_filter_to_semantic]
      | list vs => simp [dictEntry, hp, runtime_filter_to_semantic]
  · decide

/-- C8: in `dict_to_semantic_filters` a string value is a scalar, not a
list-like sequence: the filter emitted at the position of a string-valued
entry carries operator EQUALS with `value` the whole string, its `values`
field empty, and its operator is not IN. -/
theorem dict_string_scalar (pre post : List (String × PyValue)) (d s : String) :
    (dict_to_semantic_filters (pre ++ (d, PyValue.str s) :: post))[pre.length]?
      = some (runtime_filter_to_semantic d FilterOperator.EQUALS
          (some (PyValue.str s)) none none none none FilterValueType.STRING
          FilterType.WHERE true none)
    ∧ (runtime_filter_to_semantic d FilterOperator.EQUALS
        (some (PyValue.str s)) none none none none FilterValueType.STRING
        FilterType.WHERE true none).operator = FilterOperator.EQUALS
    ∧ (runtime_filter_to_semantic d FilterOperator.EQUALS
        (some (PyValue.str s)) none none none none FilterValueType.STRING
        FilterType.WHERE true none).value = some (PyValue.str s)
    ∧ (runtime_filter_to_semantic d FilterOperator.EQUALS
        (some (PyValue.str s)) none none none none FilterValueType.STRING
        FilterType.WHERE true none).values = none
    ∧ (runtime_filter_to_semantic d FilterOperator.EQUALS
        (some (PyValue.str s)) none none none none FilterValueType.STRING
        FilterType.WHERE true none).operator ≠ FilterOperator.IN := by
  refine ⟨?_, rfl, rfl, rfl, by simp [runtime_filter_to_semantic]⟩
  rw [dict_to_semantic_filters_eq_map, List.map_append]
  rw [List.getElem?_append_right (by simp)]
  simp [dictEntry, runtime_filter_to_semantic]

/-- C8 witness: the string-scalar theorem applied at the singleton mapping
from "status" to the string "active". -/
theorem dict_string_scalar_witness :
    (dict_to_semantic_filters [("status", PyValue.str "active")])[(0 : Nat)]?
      = some (runtime_filter_to_semantic "status" FilterOperator.EQUALS
          (some (PyValue.str "active")) none none none none
          FilterValueType.STRING FilterType.WHERE true none)
    ∧ (runtime_filter_to_semantic "status" FilterOperator.EQUALS
        (some (PyValue.str "active")) none none none none
        FilterValueType.STRING FilterType.WHERE true
        none).operator ≠ FilterOperator.IN :=
  ⟨(dict_string_scalar [] [] "status" "active").1,
    (dict_string_scalar [] [] "status" "active").2.2.2.2⟩

/-- C9: `dict_to_semantic_filters` is order-sensitive: for distinct dimensions
`a` and `b` with values 1 and 2, the output for [(a,1),(b,2)] differs, as an
ordered sequence, from the output for [(b,2),(a,1)]. -/
theorem dict_order_sensitive (a b : String) (hab : a ≠ b) :
    dict_to_semantic_filters [(a, PyValue.int 1), (b, PyValue.int 2)]
      ≠ dict_to_semantic_filters [(b, PyValue.int 2), (a, PyValue.int 1)] := by
  intro h
  rw [dict_to_semantic_filters_eq_map, dict_to_semantic_filters_eq_map] at h
  have h0 := congrArg (fun l => l.map SemanticFilter.query) h
  simp [dictEntry, runtime_filter_to_semantic] at h0
  exact hab h0.1

/-- C9 witness: the order-sensitivity theorem applied at the concrete distinct
dimensions "a" and "b". -/
theorem dict_order_sensitive_witness :
    ("a" : String) ≠ "b"
    ∧ dict_to_semantic_filters [("a", PyValue.int 1), ("b", PyValue.int 2)]
      ≠ dict_to_semantic_filters [("b", PyValue.int 2), ("a", PyValue.int 1)] :=
  ⟨by decide, dict_order_sensitive "a" "b" (by decide)⟩

/-- C1: for non-empty baseline and runtime lists (whose names are unique
within each list, the spec's data-model invariant), the non-replace merge
output lists the baseline names first in their original relative order —
overwritten names staying at their baseline position — followed by the
runtime-only names in runtime order; every output entry named in runtime is
the runtime entry, and every other output entry is the baseline entry. -/
theorem merge_nonreplace_order (b r : List SemanticFilter) (hb : b ≠ [])
    (hr : r ≠ []) (hbn : (fnames b).Nodup) (hrn : (fnames r).Nodup) :
    fnames (merge_filters (some b) r false)
      = fnames b ++ (fnames r).filter (fun n => decide (n ∉ fnames b))
    ∧ ∀ f ∈ merge_filters (some b) r false,
        (f.name ∈ fnames r → f ∈ r) ∧ (f.name ∉ fnames r → f ∈ b) := by
  rw [merge_filters_nonempty b r hb hr]
  constructor
  · rw [fnames_map_snd _ (mergeDict_inv b r)]
    exact mergeDict_dkeys b r hbn hrn
  · intro f hf
    have hlk : dlook (mergeDict b r) f.name = some f :=
      dlook_of_mem_output _ f (mergeDict_nodup b r) (mergeDict_inv b r) hf
    rw [mergeDict_dlook] at hlk
    constructor
    · intro hfr
      rw [if_pos hfr] at hlk
      exact (lastNamed_mem r f.name f hlk).1
    · intro hfr
      rw [if_neg hfr] at hlk
      by_cases hfb : f.name ∈ fnames b
      · rw [if_pos hfb] at hlk
        exact (lastNamed_mem b f.name f hlk).1
      · rw [if_neg hfb] at hlk
        cases hlk

/-- C1 witness: the ordering theorem applied at baseline [fA, fB] and runtime
[fB2, fC] (runtime overrides name "b" and adds name "c"). -/
theorem merge_nonreplace_order_witness :
    ([fA, fB] : List SemanticFilter) ≠ []
    ∧ ([fB2, fC] : List SemanticFilter) ≠ []
    ∧ (fnames [fA, fB]).Nodup ∧ (fnames [fB2, fC]).Nodup
    ∧ (fnames (merge_filters (some [fA, fB]) [fB2, fC] false)
        = fnames [fA, fB]
          ++ (fnames [fB2, fC]).filter (fun n => decide (n ∉ fnames [fA, fB]))
      ∧ ∀ f ∈ merge_filters (some [fA, fB]) [fB2, fC] false,
          (f.name ∈ fnames [fB2, fC] → f ∈ [fB2, fC])
          ∧ (f.name ∉ fnames [fB2, fC] → f ∈ [fA, fB])) :=
  ⟨by decide, by decide, by decide, by decide,
    merge_nonreplace_order [fA, fB] [fB2, fC] (by decide) (by decide)
      (by decide) (by decide)⟩

/-- C2: for non-empty baseline and runtime lists (names unique within each
list, the spec's data-model invariant), the non-replace merge keeps every
baseline entry whose name runtime does not mention, unchanged; and for every
name present in both lists the single output entry under that name is the
runtime entry. -/
theorem merge_nonreplace_content (b r : List SemanticFilter) (hb : b ≠ [])
    (hr : r ≠ []) (hbn : (fnames b).Nodup) (hrn : (fnames r).Nodup) :
    (∀ f ∈ b, f.name ∉ fnames r → f ∈ merge_filters (some b) r false)
    ∧ ∀ n, n ∈ fnames b → n ∈ fnames r →
        ∃ g, g ∈ r ∧ g.name = n ∧ g ∈ merge_filters (some b) r false
          ∧ ∀ f ∈ merge_filters (some b) r false, f.name = n → f = g := by
  rw [merge_filters_nonempty b r hb hr]
  constructor
  · intro f hf hfr
    have hlast : lastNamed b f.name = some f := lastNamed_of_nodup b f hbn hf
    have hfb : f.name ∈ fnames b := List.mem_map.mpr ⟨f, hf, rfl⟩
    have hdl : dlook (mergeDict b r) f.name = some f := by
      rw [mergeDict_dlook, if_neg hfr, if_pos hfb, hlast]
    exact dlook_some_mem _ _ _ hdl
  · intro n hnb hnr
    have hne : lastNamed r n ≠ none := by
      rw [Ne, lastNamed_eq_none_iff]
      simpa using hnr
    cases hg : lastNamed r n with
    | none => exact absurd hg hne
    | some g =>
      have hdl : dlook (mergeDict b r) n = some g := by
        rw [mergeDict_dlook, if_pos hnr, hg]
      have hgmem := lastNamed_mem r n g hg
      refine ⟨g, hgmem.1, hgmem.2, dlook_some_mem _ _ _ hdl, ?_⟩
      intro f hf hfn
      have hfl : dlook (mergeDict b r) f.name = some f :=
        dlook_of_mem_output _ f (mergeDict_nodup b r) (mergeDict_inv b r) hf
      rw [hfn, hdl] at hfl
      exact (Option.some.inj hfl).symm

/-- C2 witness: the content theorem applied at baseline [fA, fB] and runtime
[fB2, fC]. -/
theorem merge_nonreplace_content_witness :
    ([fA, fB] : List SemanticFilter) ≠ []
    ∧ ([fB2, fC] : List SemanticFilter) ≠ []
    ∧ (fnames [fA, fB]).Nodup ∧ (fnames [fB2, fC]).Nodup
    ∧ ((∀ f ∈ [fA, fB], f.name ∉ fnames [fB2, fC]
          → f ∈ merge_filters (some [fA, fB]) [fB2, fC] false)
      ∧ ∀ n, n ∈ fnames [fA, fB] → n ∈ fnames [fB2, fC] →
          ∃ g, g ∈ [fB2, fC] ∧ g.name = n
            ∧ g ∈ merge_filters (some [fA, fB]) [fB2, fC] false
            ∧ ∀ f ∈ merge_filters (some [fA, fB]) [fB2, fC] false,
                f.name = n → f = g) :=
  ⟨by decide, by decide, by decide, by decide,
    merge_nonreplace_content [fA, fB] [fB2, fC] (by decide) (by decide)
      (by decide) (by decide)⟩

/-- C7: merging any list with itself under replace=false yields a list equal
to the original by name-set and by per-name content. -/
theorem merge_self_idem (l : List SemanticFilter) :
    (∀ n, n ∈ fnames (merge_filters (some l) l false) ↔ n ∈ fnames l)
    ∧ ∀ n, lastNamed (merge_filters (some l) l false) n = lastNamed l n := by
  by_cases hl : l = []
  · subst hl
    constructor
    · intro n
      simp [merge_filters]
    · intro n
      simp [merge_filters]
  · rw [merge_filters_nonempty l l hl hl]
    constructor
    · intro n
      rw [fnames_map_snd _ (mergeDict_inv l l), mergeDict_mem_keys]
      tauto
    · intro n
      rw [lastNamed_map_snd _ _ (mergeDict_nodup l l) (mergeDict_inv l l),
        mergeDict_dlook]
      by_cases hn : n ∈ fnames l
      · rw [if_pos hn]
      · rw [if_neg hn, if_neg hn, (lastNamed_eq_none_iff l n).mpr hn]

/-- C10: when replace is false and both lists are non-empty the output holds
at most one filter per name, the survivor under each name being the last
runtime occurrence when runtime mentions the name and the last baseline
occurrence otherwise; by contrast the verbatim-return branches (replace true,
or an absent/empty input list) can return a list that still carries duplicate
names, as [fB, fB2] shows. -/
theorem merge_dedup_invariant :
    (∀ b r : List SemanticFilter, b ≠ [] → r ≠ [] →
      (fnames (merge_filters (some b) r false)).Nodup
      ∧ ∀ n, lastNamed (merge_filters (some b) r false) n
          = if n ∈ fnames r then lastNamed r n else lastNamed b n)
    ∧ merge_filters (some [fA]) [fB, fB2] true = [fB, fB2]
    ∧ merge_filters none [fB, fB2] false = [fB, fB2]
    ∧ merge_filters (some [fB, fB2]) [] false = [fB, fB2]
    ∧ ¬ (fnames [fB, fB2]).Nodup := by
  refine ⟨?_, rfl, rfl, by simp [merge_filters], by decide⟩
  intro b r hb hr
  rw [merge_filters_nonempty b r hb hr]
  constructor
  · rw [fnames_map_snd _ (mergeDict_inv b r)]
    exact mergeDict_nodup b r
  · intro n
    rw [lastNamed_map_snd _ _ (mergeDict_nodup b r) (mergeDict_inv b r),
      mergeDict_dlook]
    by_cases hnr : n ∈ fnames r
    · rw [if_pos hnr, if_pos hnr]
    · rw [if_neg hnr, if_neg hnr]
      by_cases hnb : n ∈ fnames b
      · rw [if_pos hnb]
      · rw [if_neg hnb, (lastNamed_eq_none_iff b n).mpr hnb]

/-- C10 witness: the deduplication theorem applied at a baseline that itself
duplicates the name "a" ([fA2, fA]) and the runtime list [fB]. -/
theorem merge_dedup_invariant_witness :
    ([fA2, fA] : List SemanticFilter) ≠ []
    ∧ ([fB] : List SemanticFilter) ≠ []
    ∧ ((fnames (merge_filters (some [fA2, fA]) [fB] false)).Nodup
      ∧ ∀ n, lastNamed (merge_filters (some [fA2, fA]) [fB] false) n
          = if n ∈ fnames [fB] then lastNamed [fB] n
            else lastNamed [fA2, fA] n) :=
  ⟨by decide, by decide,
    merge_dedup_invariant.1 [fA2, fA] [fB] (by decide) (by decide)⟩

end Cortex
